import Mathlib

/-!
Verification of the `namaste` disease-code resolver (`src/app.py`).

The Python source keeps a module-level dictionary `diseases` mapping a
canonical disease name to an inner dictionary with the two code keys
`"ICD11"` and `"TM2"`.  The `/get_code` route trims the query, rejects an
empty query, tries a case-sensitive exact dictionary lookup, and otherwise
falls back to `rapidfuzz.process.extractOne` over the catalog keys with an
exclusive acceptance threshold of 70.  The `/update/<disease>` and
`/delete/<disease>` routes mutate the dictionary in place.

Python dictionaries preserve insertion order and have unique keys, so the
catalog is embedded as an association list `List (String × EntryDict)` and
the inner code dictionary as `List (String × String)`, with lookup,
in-place assignment and deletion translated key-by-key from the source.

`rapidfuzz` is an external library: the resolver is therefore stated over
an arbitrary scorer `sc : String → String → Nat` wherever a claim does not
depend on the concrete scoring algorithm, and `extractOne` reproduces the
library's documented selection rule (best score wins; on a tie the first
candidate in iteration order is kept; `None` on an empty candidate set,
which the handler unpacks without a check — a crash).
-/

set_option autoImplicit false

namespace Namaste

/-- The inner Python dictionary of one catalog entry, e.g.
`{"ICD11": "CA23", "TM2": "TM2-404"}`. -/
abbrev EntryDict := List (String × String)

/-- The module-level `diseases` dictionary: canonical name → entry. -/
abbrev Catalog := List (String × EntryDict)

/-- Python `d[k]` / `k in d`: first value stored under key `k`. -/
def getKey {β : Type} (k : String) : List (String × β) → Option β
  | [] => none
  | p :: rest => if p.1 = k then some p.2 else getKey k rest

/-- Python `d[k] = v`: overwrite the value at an existing key in place
(keeping its position), or append a fresh key at the end. -/
def setKey {β : Type} (k : String) (v : β) : List (String × β) → List (String × β)
  | [] => [(k, v)]
  | p :: rest => if p.1 = k then (k, v) :: rest else p :: setKey k v rest

/-- Python `del d[k]`: remove the entry stored under key `k`. -/
def delKey {β : Type} (k : String) : List (String × β) → List (String × β)
  | [] => []
  | p :: rest => if p.1 = k then rest else p :: delKey k rest

/-- Python `s.strip()`: drop whitespace from both ends of the string. -/
def pyStrip (s : String) : String :=
  ⟨((s.data.dropWhile Char.isWhitespace).reverse.dropWhile Char.isWhitespace).reverse⟩

/-- The seed catalog from `src/app.py` lines 8–12. -/
def diseases : Catalog :=
  [("Asthma", [("ICD11", "CA23"), ("TM2", "TM2-404")]),
   ("Diabetes mellitus", [("ICD11", "5A11"), ("TM2", "TM2-101")]),
   ("Fever", [("ICD11", "MG21"), ("TM2", "TM2-210")])]

/-- Outcome of the `/get_code` route, keeping exactly the data the FHIR
response carries: the matched name, the two codes, and (on the fuzzy
path) the score.  `pyCrash` marks an uncaught Python exception. -/
inductive GetCodeResult where
  /-- 400 `OperationOutcome`: empty or whitespace-only query. -/
  | invalidQueryError
  /-- Case-sensitive exact hit: `Condition` built from the stored codes. -/
  | exactMatch (name icd11 tm2 : String)
  /-- Fuzzy hit above the threshold. -/
  | fuzzyMatch (name icd11 tm2 : String) (score : Nat)
  /-- 404 `OperationOutcome`: best score not above the threshold. -/
  | notFound
  /-- Uncaught exception (e.g. unpacking `None` from `extractOne`). -/
  | pyCrash
  deriving DecidableEq

/-- One fold step of `rapidfuzz.process.extractOne`: a candidate replaces
the current best only on a strictly better score, so the first candidate
in iteration order is kept on a tie. -/
def foldStep (sc : String → String → Nat) (q : String) (best : String × Nat)
    (cand : String) : String × Nat :=
  if sc q cand > best.2 then (cand, sc q cand) else best

/-- `rapidfuzz.process.extractOne(q, choices)` restricted to the data the
handler uses: the best `(choice, score)` pair, or `none` when the
candidate set is empty. -/
def extractOne (sc : String → String → Nat) (q : String) :
    List String → Option (String × Nat)
  | [] => none
  | c :: cs => some (cs.foldl (foldStep sc q) (c, sc q c))

/-- The `/get_code` handler (`src/app.py` lines 20–81), with the scorer
abstracted as `sc`.  The query is trimmed; an empty result is a 400; a
case-sensitive exact lookup short-circuits the scorer entirely; otherwise
`extractOne` runs over the current keys and the result is accepted only
strictly above 70. -/
def get_code (sc : String → String → Nat) (cat : Catalog) (raw : String) :
    GetCodeResult :=
  if pyStrip raw = "" then .invalidQueryError
  else
    match getKey (pyStrip raw) cat with
    | some codes =>
      match getKey "ICD11" codes, getKey "TM2" codes with
      | some icd, some tm => .exactMatch (pyStrip raw) icd tm
      | _, _ => .pyCrash
    | none =>
      match extractOne sc (pyStrip raw) (cat.map Prod.fst) with
      | none => .pyCrash
      | some (m, s) =>
        if 70 < s then
          match getKey m cat with
          | some codes =>
            match getKey "ICD11" codes, getKey "TM2" codes with
            | some icd, some tm => .fuzzyMatch m icd tm s
            | _, _ => .pyCrash
          | none => .pyCrash
        else .notFound

/-- The `/get_code` handler as a state transformer on the shared catalog:
the handler body only reads the module-level dictionary and performs no
assignment to it, so the state component is returned unchanged. -/
def get_code_route (sc : String → String → Nat) (cat : Catalog) (raw : String) :
    GetCodeResult × Catalog :=
  (get_code sc cat raw, cat)

/-- The JSON body of a `PUT /update/<disease>` request: each code key is
optionally present. -/
structure UpdateData where
  icd11 : Option String
  tm2 : Option String
  deriving DecidableEq

/-- Outcome of a mutation route. -/
inductive MutResult where
  | updatedOk
  | deletedOk
  /-- 404 `OperationOutcome`: the name is absent. -/
  | notFoundErr
  /-- Uncaught exception (e.g. `KeyError` on a partial entry). -/
  | crashed
  deriving DecidableEq

/-- The `/update/<disease>` handler (`src/app.py` lines 121–138).  The
source performs two sequential in-place assignments
`diseases[d]["ICD11"] = data.get("ICD11", diseases[d]["ICD11"])` and
likewise for `"TM2"`; each `data.get` default reads the current stored
value (raising `KeyError` — `crashed` — if that code key were absent,
with the first assignment already applied). -/
def update_disease (cat : Catalog) (name : String) (data : UpdateData) :
    MutResult × Catalog :=
  match getKey name cat with
  | none => (.notFoundErr, cat)
  | some entry =>
    match getKey "ICD11" entry with
    | none => (.crashed, cat)
    | some oldIcd =>
      match getKey "TM2" (setKey "ICD11" (data.icd11.getD oldIcd) entry) with
      | none => (.crashed, setKey name (setKey "ICD11" (data.icd11.getD oldIcd) entry) cat)
      | some oldTm =>
        (.updatedOk,
          setKey name
            (setKey "TM2" (data.tm2.getD oldTm)
              (setKey "ICD11" (data.icd11.getD oldIcd) entry))
            (setKey name (setKey "ICD11" (data.icd11.getD oldIcd) entry) cat))

/-- The `/delete/<disease>` handler (`src/app.py` lines 142–157). -/
def delete_disease (cat : Catalog) (name : String) : MutResult × Catalog :=
  match getKey name cat with
  | some _ => (.deletedOk, delKey name cat)
  | none => (.notFoundErr, cat)

/-- Every stored entry carries both code keys (`"ICD11"` and `"TM2"`). -/
abbrev InvCatalog (cat : Catalog) : Prop :=
  ∀ p ∈ cat, (getKey "ICD11" p.2).isSome = true ∧ (getKey "TM2" p.2).isSome = true

/-- One dynamic-programming row update for the longest common subsequence:
`prev` is the suffix of the previous row starting at the diagonal cell and
`left` is the freshly computed cell to the left. -/
def lcsRowStep (c : Char) : List Char → List Nat → Nat → List Nat
  | [], _, _ => []
  | x :: xs, prev, left =>
    let cur := if x = c then prev.headD 0 + 1 else max left ((prev.drop 1).headD 0)
    cur :: lcsRowStep c xs (prev.drop 1) cur

/-- Length of a longest common subsequence, by row-wise dynamic
programming. -/
def lcsCompute (a b : List Char) : Nat :=
  (a.foldl (fun row c => 0 :: lcsRowStep c b row 0) (List.replicate (b.length + 1) 0)).getLastD 0

/-- Modelled from the spec: the concrete fuzzy scorer is the external
`rapidfuzz` library, which is not part of this repository's sources.  The
spec (§4.2, §9) describes it as a similarity in the normalized
edit-distance / token-ratio family, scaled to 0–100 and tolerant of case
differences; it is modelled here as the normalized indel similarity of the
lowercased strings: `200 * lcs / (|a| + |b|)`. -/
def specScore (q c : String) : Nat :=
  let a := q.data.map Char.toLower
  let b := c.data.map Char.toLower
  if a.length + b.length = 0 then 100
  else (200 * lcsCompute a b) / (a.length + b.length)

/-- A two-entry catalog whose insertion order disagrees with lexicographic
order, used to exhibit the tie-break behaviour. -/
def catTie : Catalog :=
  [("abcdg", [("ICD11", "i1"), ("TM2", "t1")]),
   ("abcdf", [("ICD11", "i1"), ("TM2", "t1")])]

/-! ### Association-list lemmas -/

theorem getKey_eq_none {β : Type} (k : String) (l : List (String × β))
    (h : k ∉ l.map Prod.fst) : getKey k l = none := by
  induction l with
  | nil => rfl
  | cons p rest ih =>
    simp only [List.map_cons, List.mem_cons, not_or] at h
    rw [getKey, if_neg (fun hc => h.1 hc.symm)]
    exact ih h.2

theorem getKey_mem {β : Type} {k : String} {l : List (String × β)} {v : β}
    (h : getKey k l = some v) : (k, v) ∈ l := by
  induction l with
  | nil => simp [getKey] at h
  | cons p rest ih =>
    obtain ⟨a, b⟩ := p
    by_cases hc : a = k
    · rw [getKey, if_pos hc] at h
      obtain rfl : b = v := Option.some.inj h
      subst hc
      exact List.mem_cons_self _ _
    · rw [getKey, if_neg hc] at h
      exact List.mem_cons_of_mem _ (ih h)

theorem exists_getKey {β : Type} {k : String} {l : List (String × β)}
    (h : k ∈ l.map Prod.fst) : ∃ v, getKey k l = some v := by
  induction l with
  | nil => simp at h
  | cons p rest ih =>
    obtain ⟨a, b⟩ := p
    by_cases hc : a = k
    · exact ⟨b, by rw [getKey, if_pos hc]⟩
    · simp only [List.map_cons, List.mem_cons] at h
      rcases h with h | h
      · exact absurd h.symm hc
      · obtain ⟨v, hv⟩ := ih h
        exact ⟨v, by rw [getKey, if_neg hc]; exact hv⟩

theorem getKey_setKey_self {β : Type} (k : String) (v : β) (l : List (String × β)) :
    getKey k (setKey k v l) = some v := by
  induction l with
  | nil => simp [setKey, getKey]
  | cons p rest ih =>
    by_cases hc : p.1 = k
    · rw [setKey, if_pos hc, getKey, if_pos rfl]
    · rw [setKey, if_neg hc, getKey, if_neg hc]
      exact ih

theorem getKey_setKey_ne {β : Type} (k k' : String) (v : β) (l : List (String × β))
    (h : k' ≠ k) : getKey k' (setKey k v l) = getKey k' l := by
  induction l with
  | nil =>
    simp only [setKey, getKey]
    rw [if_neg (fun hc => h hc.symm)]
  | cons p rest ih =>
    by_cases hc : p.1 = k
    · rw [setKey, if_pos hc, getKey, if_neg (fun hc2 => h hc2.symm), getKey,
        if_neg (fun hc2 => h (hc ▸ hc2).symm)]
    · rw [setKey, if_neg hc, getKey, getKey]
      by_cases hc2 : p.1 = k'
      · rw [if_pos hc2, if_pos hc2]
      · rw [if_neg hc2, if_neg hc2]
        exact ih

theorem mem_setKey {β : Type} {p : String × β} {k : String} {v : β}
    {l : List (String × β)} (h : p ∈ setKey k v l) : p = (k, v) ∨ p ∈ l := by
  induction l with
  | nil => simp [setKey] at h; exact Or.inl h
  | cons q rest ih =>
    by_cases hc : q.1 = k
    · rw [setKey, if_pos hc] at h
      rcases List.mem_cons.mp h with h | h
      · exact Or.inl h
      · exact Or.inr (List.mem_cons_of_mem _ h)
    · rw [setKey, if_neg hc] at h
      rcases List.mem_cons.mp h with h | h
      · exact Or.inr (h ▸ List.mem_cons_self _ _)
      · rcases ih h with h | h
        · exact Or.inl h
        · exact Or.inr (List.mem_cons_of_mem _ h)

theorem mem_delKey {β : Type} {p : String × β} {k : String} {l : List (String × β)}
    (h : p ∈ delKey k l) : p ∈ l := by
  induction l with
  | nil => simp [delKey] at h
  | cons q rest ih =>
    by_cases hc : q.1 = k
    · rw [delKey, if_pos hc] at h
      exact List.mem_cons_of_mem _ h
    · rw [delKey, if_neg hc] at h
      rcases List.mem_cons.mp h with h | h
      · exact h ▸ List.mem_cons_self _ _
      · exact List.mem_cons_of_mem _ (ih h)

theorem getKey_delKey_self {β : Type} (k : String) (l : List (String × β))
    (h : (l.map Prod.fst).Nodup) : getKey k (delKey k l) = none := by
  induction l with
  | nil => rfl
  | cons q rest ih =>
    simp only [List.map_cons, List.nodup_cons] at h
    by_cases hc : q.1 = k
    · rw [delKey, if_pos hc]
      exact getKey_eq_none k rest (hc ▸ h.1)
    · rw [delKey, if_neg hc, getKey, if_neg hc]
      exact ih h.2

/-! ### The `extractOne` selection rule -/

/-- Invariant of the `extractOne` fold: the final pair scores itself, its
score bounds the accumulator and every processed candidate, and it is
either the untouched accumulator or the first candidate that strictly
improved on everything before it. -/
theorem foldl_extract_spec (sc : String → String → Nat) (q : String) :
    ∀ (ks : List String) (acc : String × Nat), sc q acc.1 = acc.2 →
      sc q (List.foldl (foldStep sc q) acc ks).1 = (List.foldl (foldStep sc q) acc ks).2 ∧
      acc.2 ≤ (List.foldl (foldStep sc q) acc ks).2 ∧
      (∀ x ∈ ks, sc q x ≤ (List.foldl (foldStep sc q) acc ks).2) ∧
      (List.foldl (foldStep sc q) acc ks = acc ∨
        (acc.2 < (List.foldl (foldStep sc q) acc ks).2 ∧
          ∃ l₁ l₂, ks = l₁ ++ (List.foldl (foldStep sc q) acc ks).1 :: l₂ ∧
            ∀ x ∈ l₁, sc q x < (List.foldl (foldStep sc q) acc ks).2)) := by
  intro ks
  induction ks with
  | nil =>
    intro acc h
    exact ⟨h, le_refl _, by simp, Or.inl rfl⟩
  | cons k ks ih =>
    intro acc h
    rw [List.foldl_cons]
    by_cases hk : sc q k > acc.2
    · have hstep : foldStep sc q acc k = (k, sc q k) := by
        rw [foldStep, if_pos hk]
      rw [hstep]
      obtain ⟨ih1, ih2, ih3, ih4⟩ := ih (k, sc q k) rfl
      refine ⟨ih1, le_trans (le_of_lt hk) ih2, ?_, ?_⟩
      · intro x hx
        rcases List.mem_cons.mp hx with hx | hx
        · subst hx; exact ih2
        · exact ih3 x hx
      · rcases ih4 with heq | ⟨hlt, l₁, l₂, hdec, hbound⟩
        · refine Or.inr ⟨?_, [], ks, ?_, ?_⟩
          · rw [heq]; exact hk
          · rw [heq]; rfl
          · intro x hx; simp at hx
        · refine Or.inr ⟨lt_trans hk hlt, k :: l₁, l₂, ?_, ?_⟩
          · rw [List.cons_append, ← hdec]
          · intro x hx
            rcases List.mem_cons.mp hx with hx | hx
            · subst hx; exact hlt
            · exact hbound x hx
    · have hstep : foldStep sc q acc k = acc := by
        rw [foldStep, if_neg hk]
      rw [hstep]
      obtain ⟨ih1, ih2, ih3, ih4⟩ := ih acc h
      have hk2 : sc q k ≤ acc.2 := Nat.not_lt.mp hk
      refine ⟨ih1, ih2, ?_, ?_⟩
      · intro x hx
        rcases List.mem_cons.mp hx with hx | hx
        · subst hx; exact le_trans hk2 ih2
        · exact ih3 x hx
      · rcases ih4 with heq | ⟨hlt, l₁, l₂, hdec, hbound⟩
        · exact Or.inl heq
        · refine Or.inr ⟨hlt, k :: l₁, l₂, ?_, ?_⟩
          · rw [List.cons_append, ← hdec]
          · intro x hx
            rcases List.mem_cons.mp hx with hx | hx
            · subst hx; exact lt_of_le_of_lt hk2 hlt
            · exact hbound x hx

/-- What `extractOne` returns: a candidate that attains the maximum score,
and specifically the first candidate in iteration order that does so
(every earlier candidate scores strictly less). -/
theorem extractOne_spec (sc : String → String → Nat) (q : String)
    (ks : List String) (m : String) (s : Nat)
    (h : extractOne sc q ks = some (m, s)) :
    sc q m = s ∧ (∀ x ∈ ks, sc q x ≤ s) ∧
      ∃ l₁ l₂, ks = l₁ ++ m :: l₂ ∧ ∀ x ∈ l₁, sc q x < s := by
  cases ks with
  | nil => simp [extractOne] at h
  | cons c cs =>
    rw [extractOne] at h
    have hfold := Option.some.inj h
    obtain ⟨h1, h2, h3, h4⟩ := foldl_extract_spec sc q cs (c, sc q c) rfl
    rw [hfold] at h1 h2 h3 h4
    refine ⟨h1, ?_, ?_⟩
    · intro x hx
      rcases List.mem_cons.mp hx with hx | hx
      · subst hx; exact h2
      · exact h3 x hx
    · rcases h4 with heq | ⟨hlt, l₁, l₂, hdec, hbound⟩
      · have hm : m = c := congrArg Prod.fst heq
        refine ⟨[], cs, ?_, ?_⟩
        · rw [hm]; rfl
        · intro x hx; simp at hx
      · refine ⟨c :: l₁, l₂, ?_, ?_⟩
        · rw [List.cons_append, ← hdec]
        · intro x hx
          rcases List.mem_cons.mp hx with hx | hx
          · subst hx; exact hlt
          · exact hbound x hx

/-- Inversion of the handler: a fuzzy response pins down the branch that
produced it — nonempty trimmed query, exact miss, `extractOne` returned
exactly the reported pair, and the score cleared the threshold. -/
theorem get_code_fuzzy_inv (sc : String → String → Nat) (cat : Catalog)
    (raw m icd tm : String) (s : Nat)
    (h : get_code sc cat raw = .fuzzyMatch m icd tm s) :
    pyStrip raw ≠ "" ∧ getKey (pyStrip raw) cat = none ∧
      extractOne sc (pyStrip raw) (cat.map Prod.fst) = some (m, s) ∧ 70 < s := by
  by_cases h0 : pyStrip raw = ""
  · simp [get_code, h0] at h
  · cases hg : getKey (pyStrip raw) cat with
    | some e =>
      cases hI : getKey "ICD11" e with
      | some icd1 =>
        cases hT : getKey "TM2" e with
        | some tm1 => simp [get_code, h0, hg, hI, hT] at h
        | none => simp [get_code, h0, hg, hI, hT] at h
      | none => simp [get_code, h0, hg, hI] at h
    | none =>
      cases hx : extractOne sc (pyStrip raw) (cat.map Prod.fst) with
      | none => simp [get_code, h0, hg, hx] at h
      | some p =>
        obtain ⟨m1, s1⟩ := p
        by_cases hgt : 70 < s1
        · cases hm : getKey m1 cat with
          | some e1 =>
            cases hI : getKey "ICD11" e1 with
            | some icd1 =>
              cases hT : getKey "TM2" e1 with
              | some tm1 =>
                simp only [get_code, h0, hg, hx, hgt, hm, hI, hT, if_neg h0,
                  if_pos hgt] at h
                obtain ⟨hm1, hicd1, htm1, hs1⟩ := GetCodeResult.fuzzyMatch.inj h
                subst hm1; subst hs1
                exact ⟨h0, rfl, rfl, hgt⟩
              | none => simp [get_code, h0, hg, hx, hgt, hm, hI, hT] at h
            | none => simp [get_code, h0, hg, hx, hgt, hm, hI] at h
          | none => simp [get_code, h0, hg, hx, hgt, hm] at h
        · simp [get_code, h0, hg, hx, hgt] at h

/-! ### Claim theorems -/

/-- C1: a query whose trimmed form is exactly (case-sensitively) equal to
a canonical name in the catalog resolves on the exact path, returning the
stored codes for that name; the fuzzy scorer `sc` is universally
quantified and the result does not depend on it, so the scorer is never
consulted on this path.  (Canonical names are non-empty: the seed names
are, and no entry-creation operation exists, so `h0` holds for every
reachable catalog.) -/
theorem C1_exact_path (sc : String → String → Nat) (cat : Catalog)
    (raw : String) (e : EntryDict) (icd tm : String)
    (h0 : pyStrip raw ≠ "")
    (h1 : getKey (pyStrip raw) cat = some e)
    (h2 : getKey "ICD11" e = some icd)
    (h3 : getKey "TM2" e = some tm) :
    get_code sc cat raw = .exactMatch (pyStrip raw) icd tm := by
  simp [get_code, h0, h1, h2, h3]

/-- C1 witness: resolving `" Asthma "` against the seed catalog hits the
exact path with the stored codes, for an arbitrary scorer. -/
theorem C1_exact_path_witness :
    get_code (fun _ _ => 0) diseases " Asthma " =
      .exactMatch (pyStrip " Asthma ") "CA23" "TM2-404" :=
  C1_exact_path (fun _ _ => 0) diseases " Asthma "
    [("ICD11", "CA23"), ("TM2", "TM2-404")] "CA23" "TM2-404"
    (by decide) (by decide) (by decide) (by decide)

/-- C2: on the fuzzy path (nonempty trimmed query, exact miss, both-codes
invariant), when `extractOne` reports best pair `(m, s)` the handler
returns `fuzzyMatch m (stored codes of m) s` exactly when `70 < s`, and
`notFound` when `s ≤ 70` — the threshold boundary is exclusive. -/
theorem C2_fuzzy_threshold (sc : String → String → Nat) (cat : Catalog)
    (raw m : String) (s : Nat)
    (h0 : pyStrip raw ≠ "")
    (h1 : getKey (pyStrip raw) cat = none)
    (hInv : InvCatalog cat)
    (h2 : extractOne sc (pyStrip raw) (cat.map Prod.fst) = some (m, s)) :
    (70 < s → ∃ e icd tm, getKey m cat = some e ∧ getKey "ICD11" e = some icd ∧
      getKey "TM2" e = some tm ∧ get_code sc cat raw = .fuzzyMatch m icd tm s) ∧
    (s ≤ 70 → get_code sc cat raw = .notFound) := by
  constructor
  · intro hgt
    have hmem : m ∈ cat.map Prod.fst := by
      obtain ⟨-, -, l₁, l₂, hdec, -⟩ := extractOne_spec sc (pyStrip raw) _ m s h2
      rw [hdec]
      exact List.mem_append_right _ (List.mem_cons_self _ _)
    obtain ⟨e, he⟩ := exists_getKey hmem
    obtain ⟨hI, hT⟩ := hInv (m, e) (getKey_mem he)
    obtain ⟨icd, hI2⟩ := Option.isSome_iff_exists.mp hI
    obtain ⟨tm, hT2⟩ := Option.isSome_iff_exists.mp hT
    refine ⟨e, icd, tm, he, hI2, hT2, ?_⟩
    simp [get_code, h0, h1, h2, hgt, he, hI2, hT2]
  · intro hle
    have hngt : ¬ 70 < s := Nat.not_lt.mpr hle
    simp [get_code, h0, h1, h2, hngt]

/-- C2 witness: with a constant scorer of 100 on the seed catalog, a
missing query resolves fuzzily to the first key with its stored codes. -/
theorem C2_fuzzy_threshold_witness :
    ∃ e icd tm, getKey "Asthma" diseases = some e ∧
      getKey "ICD11" e = some icd ∧ getKey "TM2" e = some tm ∧
      get_code (fun _ _ => 100) diseases "zzz" = .fuzzyMatch "Asthma" icd tm 100 :=
  (C2_fuzzy_threshold (fun _ _ => 100) diseases "zzz" "Asthma" 100
    (by decide) (by decide) (by decide) (by decide)).1 (by decide)

/-- C4: on an empty catalog with a nonempty trimmed query, the handler
does not return `notFound`: `extractOne` yields `none` and the tuple
unpacking `match, score, _ = None` raises `TypeError` — the request
crashes.  This refutes the claim that an empty catalog resolves to
`NotFound` without crashing. -/
theorem C4_empty_catalog_crash (sc : String → String → Nat) (raw : String)
    (h : pyStrip raw ≠ "") :
    get_code sc ([] : Catalog) raw = .pyCrash := by
  simp [get_code, h, getKey, extractOne]

/-- C4 witness: a concrete query against the empty catalog crashes. -/
theorem C4_empty_catalog_crash_witness :
    get_code (fun _ _ => 0) ([] : Catalog) "headache" = .pyCrash :=
  C4_empty_catalog_crash (fun _ _ => 0) "headache" (by decide)

/-- C5: any query that strips to the empty string — empty or
whitespace-only — is rejected with the 400 `OperationOutcome` before any
lookup: the conclusion holds for every catalog and every scorer, so no
match path is attempted. -/
theorem C5_empty_query (sc : String → String → Nat) (cat : Catalog)
    (raw : String) (h : pyStrip raw = "") :
    get_code sc cat raw = .invalidQueryError := by
  simp [get_code, h]

/-- C5 witness: the whitespace-only query `"   "` is rejected. -/
theorem C5_empty_query_witness :
    get_code (fun _ _ => 0) diseases "   " = .invalidQueryError :=
  C5_empty_query (fun _ _ => 0) diseases "   " (by decide)

/-- C3 counterexample: in a catalog whose insertion order is
`["abcdg", "abcdf"]`, both names tie at the maximum score 80 for the
query `"abcde"` under the modelled scorer, yet the handler returns
`"abcdg"` — not the lexicographically first tied name `"abcdf"`.  The
claimed lexicographic tie-break is therefore false of the code. -/
theorem C3_tiebreak_counterexample :
    specScore "abcde" "abcdf" = 80 ∧ specScore "abcde" "abcdg" = 80 ∧
    (∀ x ∈ catTie.map Prod.fst, specScore "abcde" x ≤ 80) ∧
    ("abcdf" : String) < "abcdg" ∧
    get_code specScore catTie "abcde" = .fuzzyMatch "abcdg" "i1" "t1" 80 := by
  refine ⟨by decide, by decide, ?_, ?_, by decide⟩
  · intro x hx
    fin_cases hx <;> decide
  · exact String.lt_iff_toList_lt.mpr (by decide)

/-- C3 amended: among the names tied at the maximum score, the handler
deterministically selects the first one in catalog iteration (insertion)
order — every key listed before the returned name scores strictly below
the returned (maximum) score — not the lexicographically first one.
Determinism across repeated calls is immediate since `get_code` is a
function of its arguments. -/
theorem C3_tiebreak_insertion_order (sc : String → String → Nat)
    (cat : Catalog) (raw m icd tm : String) (s : Nat)
    (h : get_code sc cat raw = .fuzzyMatch m icd tm s) :
    (∀ x ∈ cat.map Prod.fst, sc (pyStrip raw) x ≤ s) ∧
    ∃ l₁ l₂, cat.map Prod.fst = l₁ ++ m :: l₂ ∧
      ∀ x ∈ l₁, sc (pyStrip raw) x < s := by
  obtain ⟨-, -, hx, -⟩ := get_code_fuzzy_inv sc cat raw m icd tm s h
  obtain ⟨-, h2, h3⟩ := extractOne_spec sc (pyStrip raw) _ m s hx
  exact ⟨h2, h3⟩

/-- C3 witness: on the tie catalog the returned name `"abcdg"` attains
the maximum and is first in insertion order among the tied names. -/
theorem C3_tiebreak_insertion_order_witness :
    (∀ x ∈ catTie.map Prod.fst, specScore (pyStrip "abcde") x ≤ 80) ∧
    ∃ l₁ l₂, catTie.map Prod.fst = l₁ ++ "abcdg" :: l₂ ∧
      ∀ x ∈ l₁, specScore (pyStrip "abcde") x < 80 :=
  C3_tiebreak_insertion_order specScore catTie "abcde" "abcdg" "i1" "t1" 80
    (by decide)

/-- C6: updating an existing name succeeds, stores exactly the supplied
fields (an omitted field keeps its previous value), and leaves every
other key's lookup unchanged. -/
theorem C6_partial_update (cat : Catalog) (name : String) (d : UpdateData)
    (entry : EntryDict) (oldIcd oldTm : String)
    (h1 : getKey name cat = some entry)
    (h2 : getKey "ICD11" entry = some oldIcd)
    (h3 : getKey "TM2" entry = some oldTm) :
    (update_disease cat name d).1 = .updatedOk ∧
    (∃ e2, getKey name (update_disease cat name d).2 = some e2 ∧
      getKey "ICD11" e2 = some (d.icd11.getD oldIcd) ∧
      getKey "TM2" e2 = some (d.tm2.getD oldTm)) ∧
    (∀ k, k ≠ name → getKey k (update_disease cat name d).2 = getKey k cat) := by
  have hT : getKey "TM2" (setKey "ICD11" (d.icd11.getD oldIcd) entry) = some oldTm := by
    rw [getKey_setKey_ne _ _ _ _ (by decide)]
    exact h3
  have hu : update_disease cat name d =
      (.updatedOk,
        setKey name
          (setKey "TM2" (d.tm2.getD oldTm)
            (setKey "ICD11" (d.icd11.getD oldIcd) entry))
          (setKey name (setKey "ICD11" (d.icd11.getD oldIcd) entry) cat)) := by
    simp only [update_disease, h1, h2, hT]
  rw [hu]
  refine ⟨rfl, ⟨setKey "TM2" (d.tm2.getD oldTm)
      (setKey "ICD11" (d.icd11.getD oldIcd) entry), ?_, ?_, ?_⟩, ?_⟩
  · exact getKey_setKey_self _ _ _
  · rw [getKey_setKey_ne _ _ _ _ (by decide)]
    exact getKey_setKey_self _ _ _
  · exact getKey_setKey_self _ _ _
  · intro k hk
    rw [getKey_setKey_ne _ _ _ _ hk, getKey_setKey_ne _ _ _ _ hk]

/-- C6 witness: `update("Asthma", {ICD11: "X1"})` on the seed catalog
stores `"X1"`, keeps `"TM2-404"`, and leaves `"Fever"` untouched. -/
theorem C6_partial_update_witness :
    (∃ e2, getKey "Asthma" (update_disease diseases "Asthma" ⟨some "X1", none⟩).2 = some e2 ∧
      getKey "ICD11" e2 = some "X1" ∧ getKey "TM2" e2 = some "TM2-404") ∧
    getKey "Fever" (update_disease diseases "Asthma" ⟨some "X1", none⟩).2 =
      getKey "Fever" diseases := by
  have h := C6_partial_update diseases "Asthma" ⟨some "X1", none⟩
    [("ICD11", "CA23"), ("TM2", "TM2-404")] "CA23" "TM2-404"
    (by decide) (by decide) (by decide)
  exact ⟨h.2.1, h.2.2 "Fever" (by decide)⟩

/-- C7: on an absent name, both `update` and `delete` answer the 404
`OperationOutcome` and return the catalog completely unchanged; after a
successful `delete`, the name no longer resolves, so a second `delete`
fails with the 404 outcome and leaves the post-delete state unchanged
(the source dictionary has unique keys, captured by the `Nodup`
hypothesis). -/
theorem C7_notfound_unchanged (cat : Catalog) (name : String) (d : UpdateData) :
    (getKey name cat = none →
      update_disease cat name d = (.notFoundErr, cat) ∧
      delete_disease cat name = (.notFoundErr, cat)) ∧
    ((cat.map Prod.fst).Nodup → ∀ e, getKey name cat = some e →
      delete_disease cat name = (.deletedOk, delKey name cat) ∧
      delete_disease (delKey name cat) name = (.notFoundErr, delKey name cat)) := by
  constructor
  · intro h
    constructor
    · rw [update_disease, h]
    · rw [delete_disease, h]
  · intro hnd e he
    constructor
    · rw [delete_disease, he]
    · rw [delete_disease, getKey_delKey_self name cat hnd]

/-- C7 witness: updating/deleting the absent `"Cold"` leaves the seed
catalog unchanged, and a second delete of `"Fever"` fails with the 404
outcome while keeping the post-delete state. -/
theorem C7_notfound_unchanged_witness :
    (update_disease diseases "Cold" ⟨none, none⟩ = (.notFoundErr, diseases) ∧
      delete_disease diseases "Cold" = (.notFoundErr, diseases)) ∧
    delete_disease (delKey "Fever" diseases) "Fever" =
      (.notFoundErr, delKey "Fever" diseases) :=
  ⟨(C7_notfound_unchanged diseases "Cold" ⟨none, none⟩).1 (by decide),
    ((C7_notfound_unchanged diseases "Fever" ⟨none, none⟩).2 (by decide)
      [("ICD11", "MG21"), ("TM2", "TM2-210")] (by decide)).2⟩

/-- C8: every entry carries both code keys — the seed catalog satisfies
the invariant, and both mutation routes preserve it (an update writes
both keys, reading the old value for an omitted field; a delete only
removes whole entries). -/
theorem C8_invariant_codes :
    InvCatalog diseases ∧
    (∀ (cat : Catalog) (name : String) (d : UpdateData), InvCatalog cat →
      InvCatalog (update_disease cat name d).2) ∧
    (∀ (cat : Catalog) (name : String), InvCatalog cat →
      InvCatalog (delete_disease cat name).2) := by
  refine ⟨by decide, ?_, ?_⟩
  · intro cat name d hInv
    cases hg : getKey name cat with
    | none =>
      rw [update_disease, hg]
      exact hInv
    | some entry =>
      obtain ⟨hI, hT⟩ := hInv (name, entry) (getKey_mem hg)
      obtain ⟨oldIcd, hI2⟩ := Option.isSome_iff_exists.mp hI
      obtain ⟨oldTm, hT2⟩ := Option.isSome_iff_exists.mp hT
      replace hI2 : getKey "ICD11" entry = some oldIcd := hI2
      replace hT2 : getKey "TM2" entry = some oldTm := hT2
      have hT3 : getKey "TM2" (setKey "ICD11" (d.icd11.getD oldIcd) entry) = some oldTm := by
        rw [getKey_setKey_ne _ _ _ _ (by decide)]
        exact hT2
      simp only [update_disease, hg, hI2, hT3]
      intro p hp
      rcases mem_setKey hp with hp | hp
      · subst hp
        constructor
        · rw [getKey_setKey_ne _ _ _ _ (by decide), getKey_setKey_self]
          rfl
        · rw [getKey_setKey_self]
          rfl
      · rcases mem_setKey hp with hp | hp
        · subst hp
          constructor
          · rw [getKey_setKey_self]
            rfl
          · rw [getKey_setKey_ne _ _ _ _ (by decide)]
            rw [hT2]
            rfl
        · exact hInv p hp
  · intro cat name hInv
    cases hg : getKey name cat with
    | none =>
      rw [delete_disease, hg]
      exact hInv
    | some e =>
      rw [delete_disease, hg]
      intro p hp
      exact hInv p (mem_delKey hp)

/-- C8 witness: the invariant holds for the seed catalog and is kept by a
concrete partial update and a concrete delete. -/
theorem C8_invariant_codes_witness :
    InvCatalog diseases ∧
    InvCatalog (update_disease diseases "Asthma" ⟨some "X1", none⟩).2 ∧
    InvCatalog (delete_disease diseases "Fever").2 :=
  ⟨C8_invariant_codes.1,
    C8_invariant_codes.2.1 diseases "Asthma" ⟨some "X1", none⟩ (by decide),
    C8_invariant_codes.2.2 diseases "Fever" (by decide)⟩

/-- C9: `/get_code` never mutates the catalog — as a state transformer it
returns the catalog it was called with — and its response is the pure
function `get_code` of the scorer, the catalog contents at call time, and
the query, so repeated calls on equal state give equal results. -/
theorem C9_resolve_pure (sc : String → String → Nat) (cat : Catalog)
    (raw : String) :
    (get_code_route sc cat raw).2 = cat ∧
    (get_code_route sc cat raw).1 = get_code sc cat raw :=
  ⟨rfl, rfl⟩

/-- C10: with the seed catalog (`"Asthma" ↦ {CA23, TM2-404}`), the query
`"asthma"` misses the case-sensitive exact lookup, goes through the fuzzy
path with the modelled scorer, and returns a match referencing
`"Asthma"` with its stored codes and a score of at least the
threshold 70. -/
theorem C10_asthma_scenario :
    getKey "asthma" diseases = none ∧
    get_code specScore diseases "asthma" =
      .fuzzyMatch "Asthma" "CA23" "TM2-404" 100 ∧
    70 ≤ 100 := by decide


end Namaste
